import Mathlib

/-!
Verification of the workbook-migration pipeline in `deploy_workbook.py`.

Strings of the Python program are modelled as `List Char`; Python's
`str.lower` is modelled with `Char.toLower` (ASCII case mapping, which
agrees with Python on the ASCII names used throughout the claims).
The filesystem state touched by the pipeline is modelled explicitly:
an extracted archive tree is a list of file entries with component
paths, and the orchestrator is a function from the outcomes of the
external interactions (authentication, remote listing, download
materialisation, publish) to a record of the observable final state
(open sessions, files on disk, which stages ran).
-/

namespace DeployWorkbook

/-! ### Python `str.replace`, modelled from `content.replace(find_str, replace_str)` -/

/-- Model of Python's substring containment test `find_str in content`:
`true` iff `find` occurs as a contiguous substring of `s`. -/
def containsSub (find : List Char) : List Char → Bool
  | [] => find.isEmpty
  | c :: cs => find.isPrefixOf (c :: cs) || containsSub find cs

/-- Core of Python `str.replace` for a non-empty pattern: scan left to
right; at each position, if `find` matches there, emit `rep` and skip
past the match (non-overlapping); otherwise keep the character.  A
fuel parameter bounds the scan; since every step for a non-empty
pattern consumes at least one character, fuel equal to the length of
the text (as used by `pyReplace`) is never exhausted. -/
def pyReplaceAux (find rep : List Char) : Nat → List Char → List Char
  | 0, s => s
  | _ + 1, [] => []
  | fuel + 1, c :: cs =>
    if find.isPrefixOf (c :: cs) then
      rep ++ pyReplaceAux find rep fuel ((c :: cs).drop find.length)
    else
      c :: pyReplaceAux find rep fuel cs

/-- Model of Python's `content.replace(find_str, replace_str)`.  For an
empty pattern Python inserts `rep` at every position, including before
the first character and after the last. -/
def pyReplace (find rep s : List Char) : List Char :=
  if find.isEmpty then rep ++ (s.map (fun c => c :: rep)).flatten
  else pyReplaceAux find rep s.length s

/-- Index of the leftmost position at which `find` occurs in `s`
(`some 0` on an empty pattern). -/
def leftmostMatch (find : List Char) : List Char → Option Nat
  | [] => if find.isEmpty then some 0 else none
  | c :: cs =>
    if find.isPrefixOf (c :: cs) then some 0
    else (leftmostMatch find cs).map (· + 1)

/-- Modelled from the spec: "literal non-overlapping left-to-right
substring semantics" — repeatedly find the leftmost occurrence of
`find`, replace it with `rep`, and continue after the replaced
occurrence.  A fuel parameter bounds the rounds; since every round
for a non-empty pattern consumes at least one character, fuel equal
to the length of the text (as used by `specReplace`) is never
exhausted. -/
def specReplaceAux (find rep : List Char) : Nat → List Char → List Char
  | 0, s => s
  | fuel + 1, s =>
    match leftmostMatch find s with
    | none => s
    | some i => s.take i ++ rep ++ specReplaceAux find rep fuel (s.drop (i + find.length))

/-- Modelled from the spec: replace every occurrence of `find` by `rep`
under literal non-overlapping left-to-right substring semantics. -/
def specReplace (find rep s : List Char) : List Char :=
  specReplaceAux find rep s.length s

theorem specReplaceAux_of_none {find s : List Char} (rep : List Char)
    (hm : leftmostMatch find s = none) :
    ∀ fuel, specReplaceAux find rep fuel s = s
  | 0 => rfl
  | fuel + 1 => by simp [specReplaceAux, hm]

theorem leftmostMatch_nil {find : List Char} (hf : find ≠ []) :
    leftmostMatch find [] = none := by
  cases find with
  | nil => exact absurd rfl hf
  | cons a as => rfl

theorem pyReplaceAux_nil (find rep : List Char) :
    ∀ fuel, pyReplaceAux find rep fuel [] = []
  | 0 => rfl
  | _ + 1 => rfl

theorem pyReplaceAux_eq_specReplaceAux (find rep : List Char) (hf : find ≠ []) :
    ∀ n s, s.length ≤ n → ∀ fuelA fuelB, s.length ≤ fuelA → s.length ≤ fuelB →
      pyReplaceAux find rep fuelA s = specReplaceAux find rep fuelB s := by
  intro n
  induction n with
  | zero =>
    intro s hs fuelA fuelB _ _
    have hsnil : s = [] := List.length_eq_zero.mp (Nat.le_zero.mp hs)
    subst hsnil
    rw [pyReplaceAux_nil]
    exact (specReplaceAux_of_none rep (leftmostMatch_nil hf) fuelB).symm
  | succ n ih =>
    intro s hs fuelA fuelB hfuelA hfuelB
    cases s with
    | nil =>
      rw [pyReplaceAux_nil]
      exact (specReplaceAux_of_none rep (leftmostMatch_nil hf) fuelB).symm
    | cons c cs =>
      have hflen : 0 < find.length := List.length_pos.mpr hf
      have hcs : cs.length ≤ n := by
        simp only [List.length_cons] at hs; omega
      obtain ⟨kA, rfl⟩ : ∃ k, fuelA = k + 1 :=
        ⟨fuelA - 1, by simp only [List.length_cons] at hfuelA; omega⟩
      obtain ⟨kB, rfl⟩ : ∃ k, fuelB = k + 1 :=
        ⟨fuelB - 1, by simp only [List.length_cons] at hfuelB; omega⟩
      have hkA : cs.length ≤ kA := by
        simp only [List.length_cons] at hfuelA; omega
      have hkB : cs.length ≤ kB := by
        simp only [List.length_cons] at hfuelB; omega
      by_cases hp : find.isPrefixOf (c :: cs)
      · have hlm : leftmostMatch find (c :: cs) = some 0 := by
          simp [leftmostMatch, hp]
        simp only [pyReplaceAux, if_pos hp]
        simp only [specReplaceAux, hlm, List.take_zero, List.nil_append, Nat.zero_add]
        congr 1
        exact ih ((c :: cs).drop find.length)
          (by simp only [List.length_drop, List.length_cons]; omega) kA kB
          (by simp only [List.length_drop, List.length_cons]; omega)
          (by simp only [List.length_drop, List.length_cons]; omega)
      · have hlm : leftmostMatch find (c :: cs) = (leftmostMatch find cs).map (· + 1) := by
          simp [leftmostMatch, hp]
        simp only [pyReplaceAux, if_neg hp]
        match hm : leftmostMatch find cs with
        | none =>
          have hlm0 : leftmostMatch find (c :: cs) = none := by
            rw [hlm, hm]; rfl
          rw [specReplaceAux_of_none rep hlm0 (kB + 1),
            ih cs hcs kA cs.length hkA le_rfl,
            specReplaceAux_of_none rep hm cs.length]
        | some j =>
          have hlm1 : leftmostMatch find (c :: cs) = some (j + 1) := by
            rw [hlm, hm]; rfl
          have hcs1 : specReplaceAux find rep (kB + 1) cs =
              cs.take j ++ rep ++ specReplaceAux find rep kB (cs.drop (j + find.length)) := by
            simp [specReplaceAux, hm]
          have hdrop : (c :: cs).drop (j + 1 + find.length) = cs.drop (j + find.length) := by
            have harith : j + 1 + find.length = (j + find.length) + 1 := by omega
            rw [harith, List.drop_succ_cons]
          rw [ih cs hcs kA (kB + 1) hkA (by omega)]
          simp only [specReplaceAux, hlm1, hdrop, List.take_succ_cons, hcs1]
          simp [hm, List.append_assoc]

theorem pyReplace_eq_specReplace {find : List Char} (rep s : List Char) (hf : find ≠ []) :
    pyReplace find rep s = specReplace find rep s := by
  have hfe : find.isEmpty = false := by
    cases find with
    | nil => exact absurd rfl hf
    | cons a as => rfl
  rw [pyReplace, if_neg (by simp [hfe]), specReplace]
  exact pyReplaceAux_eq_specReplaceAux find rep hf s.length s le_rfl s.length s.length
    le_rfl le_rfl

theorem containsSub_nil : ∀ s : List Char, containsSub [] s = true
  | [] => rfl
  | _ :: _ => by simp [containsSub, List.isPrefixOf]

theorem pyReplaceAux_of_not_contains (find rep : List Char) :
    ∀ fuel s, containsSub find s = false → pyReplaceAux find rep fuel s = s
  | 0, _, _ => rfl
  | _ + 1, [], _ => rfl
  | fuel + 1, c :: cs, h => by
    simp only [containsSub, Bool.or_eq_false_iff] at h
    simp only [pyReplaceAux]
    rw [if_neg (by simp [h.1]), pyReplaceAux_of_not_contains find rep fuel cs h.2]

/-- If Python's `find_str in content` test is false, `str.replace` is
the identity on `content`. -/
theorem pyReplace_of_not_contains {find : List Char} (rep : List Char)
    {s : List Char} (h : containsSub find s = false) :
    pyReplace find rep s = s := by
  have hf : find ≠ [] := fun hfe => by
    subst hfe; rw [containsSub_nil] at h; cases h
  have hfe : find.isEmpty = false := by
    cases find with
    | nil => exact absurd rfl hf
    | cons a as => rfl
  rw [pyReplace, if_neg (by simp [hfe])]
  exact pyReplaceAux_of_not_contains find rep s.length s h

/-! ### The transformer `modify_and_repackage_workbook`

An extracted archive tree is modelled as a list of files; each file's
relative path is its first component `top` together with the remaining
components `rest` (`rest = []` for a file directly inside the
extraction directory).  `os.listdir` of the extraction directory shows
each distinct first component once, whether it names a file or a
subdirectory. -/

structure FileEntry where
  top : List Char
  rest : List (List Char)
  content : List Char
deriving DecidableEq, Repr

/-- The relative path of a file, as components. -/
def fullPath (e : FileEntry) : List (List Char) :=
  e.top :: e.rest

/-- The entries `os.listdir` shows at the top of the extraction
directory: the distinct first path components. -/
def listdirNames (tree : List FileEntry) : List (List Char) :=
  (tree.map (·.top)).dedup

/-- Model of `file.lower().endswith('.twb')`. -/
def lowerEndsWithTwb (name : List Char) : Bool :=
  (String.toList ".twb").isSuffixOf (name.map Char.toLower)

/-- Fault injection for the filesystem steps of the transformer that
can raise: archive extraction, reading/writing the definition file,
and building the new archive. -/
structure TransformFaults where
  extractRaises : Bool
  readWriteRaises : Bool
  rezipRaises : Bool
deriving DecidableEq, Repr

def noFaults : TransformFaults := ⟨false, false, false⟩

inductive TransformError where
  | extractFailed
  | noTwbFound
  | readWriteFailed
  | rezipFailed
deriving DecidableEq, Repr

/-- Is this entry a file directly inside the extraction directory with
first component `name`? -/
def isTopFileNamed (name : List Char) (e : FileEntry) : Bool :=
  e.top == name && e.rest.isEmpty

/-- Model of `modify_and_repackage_workbook`.  Returns the outcome
(the produced archive's entries on success) together with whether the
extraction directory still exists on disk at the moment the function
returns.  Mirrors the source control flow:

* extraction failure is caught and returns `None` *without* removing
  the freshly created extraction directory;
* the `.twb` scan is `os.listdir` — only top-level names, matched
  case-insensitively on the `.twb` suffix, first match kept; if the
  matched name is a subdirectory, `open()` raises and the read/write
  handler removes the directory and returns `None`;
* the first matched definition file is rewritten with
  `content.replace(find_str, replace_str)`;
* the walk re-packages every file under its relative path;
* all later failure paths and the success path remove the extraction
  directory. -/
def modify_and_repackage_workbook (faults : TransformFaults) (tree : List FileEntry)
    (find rep : List Char) : Except TransformError (List FileEntry) × Bool :=
  if faults.extractRaises then (.error .extractFailed, true)
  else
    match (listdirNames tree).find? lowerEndsWithTwb with
    | none => (.error .noTwbFound, false)
    | some name =>
      match tree.find? (isTopFileNamed name) with
      | none => (.error .readWriteFailed, false)
      | some _ =>
        if faults.readWriteRaises then (.error .readWriteFailed, false)
        else if faults.rezipRaises then (.error .rezipFailed, false)
        else
          (.ok (tree.map fun e =>
            if isTopFileNamed name e then { e with content := pyReplace find rep e.content }
            else e), false)

/-- Model of `zip_ref.extractall`: archive entries are written in
order, a later entry overwriting an earlier one at the same relative
path, so exactly the last entry for each path survives on disk. -/
def extractTree : List FileEntry → List FileEntry
  | [] => []
  | e :: rest =>
    if rest.any (fun x => fullPath x == fullPath e) then extractTree rest
    else e :: extractTree rest

/-! ### Project lookup `find_project_by_name` -/

structure Project where
  name : List Char
deriving DecidableEq, Repr

/-- Model of `if project_name.startswith('/'): project_name = project_name[1:]`. -/
def stripLeadingSlash (name : List Char) : List Char :=
  match name with
  | c :: rest => if c = '/' then rest else name
  | [] => []

/-- Model of Python `str.lower` (ASCII case mapping). -/
def lowerName (s : List Char) : List Char :=
  s.map Char.toLower

/-- Modelled from the spec: resolution by case-insensitive name
comparison against the requested name exactly as given, first match
returned. -/
def caseInsensitiveLookup (projects : List Project) (name : List Char) : Option Project :=
  projects.find? (fun p => lowerName p.name == lowerName name)

/-- Model of `find_project_by_name`: strip a single leading slash,
then return the first project whose lowercased name equals the
lowercased requested name. -/
def find_project_by_name (projects : List Project) (name : List Char) : Option Project :=
  caseInsensitiveLookup projects (stripLeadingSlash name)

/-! ### The fetcher `download_workbook_from_project`

The downloaded file may materialise asynchronously, so the code polls
`os.path.exists` once per loop iteration and sleeps one second after a
failed check; `present t` says whether the expected file exists on
disk `t` seconds after the download call returned. -/

/-- The poll loop: up to `n` existence checks starting at second `t`,
one second apart; returns the second at which the file was first seen. -/
def pollLoop (present : Nat → Bool) : Nat → Nat → Option Nat
  | 0, _ => none
  | n + 1, t => if present t then some t else pollLoop present n (t + 1)

/-- The seconds at which the loop checks for the file. -/
def pollTimes (present : Nat → Bool) : Nat → Nat → List Nat
  | 0, _ => []
  | n + 1, t => if present t then [t] else t :: pollTimes present n (t + 1)

/-- The constant max_wait_seconds of the source. -/
def maxWaitSeconds : Nat := 20

inductive FetchErr where
  | projectNotFound
  | workbookNotFound
  | downloadException
  | timeout
deriving DecidableEq, Repr

inductive FetchOutcome where
  | fetched
  | failed (e : FetchErr)
  | raises
deriving DecidableEq, Repr

/-- The external facts that determine the fetch stage's outcome:
whether listing projects/workbooks raises, whether the source project
and workbook are found, whether the download call raises inside its
`try`, and when the downloaded file appears on disk. -/
structure FetchInput where
  listRaises : Bool
  projectFound : Bool
  workbookFound : Bool
  downloadCallRaises : Bool
  present : Nat → Bool

/-- Model of `download_workbook_from_project`: the project and
workbook queries run outside any `try` (an exception there propagates
to the caller); a download exception is caught and reported as `None`;
otherwise the poll loop decides between success and timeout. -/
def downloadOutcome (fi : FetchInput) : FetchOutcome :=
  if fi.listRaises then .raises
  else if !fi.projectFound then .failed .projectNotFound
  else if !fi.workbookFound then .failed .workbookNotFound
  else if fi.downloadCallRaises then .failed .downloadException
  else
    match pollLoop fi.present maxWaitSeconds 0 with
    | some _ => .fetched
    | none => .failed .timeout

/-! ### The orchestrator `process_workbook_migration` -/

inductive AuthOutcome where
  | ok
  | badEnv
  | raises
deriving DecidableEq, Repr

inductive TransformOutcome where
  | ok
  | failed
  | raises
deriving DecidableEq, Repr

inductive PublishOutcome where
  | ok
  | projectNotFound
  | rejected
  | raises
deriving DecidableEq, Repr

structure RunInput where
  sourceAuth : AuthOutcome
  fetch : FetchInput
  transform : TransformOutcome
  destAuth : AuthOutcome
  publish : PublishOutcome

/-- The observable final state of one pipeline run. -/
structure RunState where
  sourceSignIns : Nat
  sourceSignOuts : Nat
  destSignIns : Nat
  destSignOuts : Nat
  downloadedOnDisk : Bool
  transformedOnDisk : Bool
  transformerRan : Bool
  publisherRan : Bool
  cleanupReached : Bool
  raisedOut : Bool
deriving DecidableEq, Repr

def initialState : RunState :=
  ⟨0, 0, 0, 0, false, false, false, false, false, false⟩

/-- Model of `process_workbook_migration`, mirroring the source control
flow statement by statement:

* a failed source/destination `authenticate` (unknown environment)
  returns early; a raising `sign_in` opens no session and propagates;
* the source sign-out on line 115 runs whenever the fetch stage
  returns (success or `None`), but not when it raises;
* a `None` from fetch or transform returns early without cleanup;
* destination authentication failure returns early without cleanup;
* `publish_modified_workbook` returns normally both on success and on
  its logged failures (project not found, rejected upload), and the
  run then signs out the destination session and unconditionally
  performs cleanup, deleting both local archives. -/
def process_workbook_migration (i : RunInput) : RunState :=
  match i.sourceAuth with
  | .raises => { initialState with raisedOut := true }
  | .badEnv => initialState
  | .ok =>
    let s1 := { initialState with sourceSignIns := 1 }
    match downloadOutcome i.fetch with
    | .raises => { s1 with raisedOut := true }
    | .failed _ => { s1 with sourceSignOuts := 1 }
    | .fetched =>
      let s3 := { s1 with downloadedOnDisk := true, sourceSignOuts := 1,
                          transformerRan := true }
      match i.transform with
      | .raises => { s3 with raisedOut := true }
      | .failed => s3
      | .ok =>
        let s4 := { s3 with transformedOnDisk := true }
        match i.destAuth with
        | .raises => { s4 with raisedOut := true }
        | .badEnv => s4
        | .ok =>
          let s5 := { s4 with destSignIns := 1, publisherRan := true }
          match i.publish with
          | .raises => { s5 with raisedOut := true }
          | _ =>
            { s5 with destSignOuts := 1, cleanupReached := true,
                      downloadedOnDisk := false, transformedOnDisk := false }

/-! ### Helper lemmas -/

/-- The file's own name: the last component of its relative path. -/
def fileName (e : FileEntry) : List Char :=
  e.rest.getLast?.getD e.top

theorem map_id_of_eq {α : Type} (f : α → α) :
    ∀ l : List α, (∀ a ∈ l, f a = a) → l.map f = l
  | [], _ => rfl
  | a :: as, h => by
    rw [List.map_cons, h a (List.mem_cons_self a as),
      map_id_of_eq f as (fun x hx => h x (List.mem_cons_of_mem _ hx))]

theorem stripLeadingSlash_of_no_slash {name : List Char}
    (h : name.head? ≠ some '/') : stripLeadingSlash name = name := by
  cases name with
  | nil => rfl
  | cons c rest =>
    have hc : c ≠ '/' := fun hcc => h (by simp [hcc])
    simp [stripLeadingSlash, hc]

instance {ε α : Type} [DecidableEq ε] [DecidableEq α] : DecidableEq (Except ε α) := fun
  | .error a, .error b =>
    if h : a = b then .isTrue (by rw [h]) else .isFalse (fun hc => by cases hc; exact h rfl)
  | .error _, .ok _ => .isFalse (fun hc => by cases hc)
  | .ok _, .error _ => .isFalse (fun hc => by cases hc)
  | .ok a, .ok b =>
    if h : a = b then .isTrue (by rw [h]) else .isFalse (fun hc => by cases hc; exact h rfl)

/-! ### Claim theorems -/

/-- C6: for every definition-file text and every (find, replace) pair with
`find` non-empty, the transformer's rewrite (Python's
`content.replace(find_str, replace_str)`) replaces every occurrence of
`find` by `rep` under literal non-overlapping left-to-right substring
semantics: it agrees with the spec-modelled leftmost-occurrence
replacement. -/
theorem C6_literal_replace_semantics (find rep s : List Char) (hf : find ≠ []) :
    pyReplace find rep s = specReplace find rep s :=
  pyReplace_eq_specReplace rep s hf

theorem C6_witness :
    "aba".toList ≠ [] ∧
      pyReplace "aba".toList "x".toList "ababa".toList =
        specReplace "aba".toList "x".toList "ababa".toList :=
  ⟨by decide, C6_literal_replace_semantics "aba".toList "x".toList "ababa".toList (by decide)⟩

/-- C7: when the find string does not occur in the located definition
file, the transformer succeeds and the produced tree is identical to the
input tree — the definition file's content is unchanged and every other
file is byte-identical. -/
theorem C7_absent_find_is_noop (tree : List FileEntry) (find rep name : List Char)
    (hfind : (listdirNames tree).find? lowerEndsWithTwb = some name)
    (hfile : (tree.find? (isTopFileNamed name)).isSome = true)
    (hnc : ∀ e ∈ tree, isTopFileNamed name e = true → containsSub find e.content = false) :
    (modify_and_repackage_workbook noFaults tree find rep).1 = .ok tree := by
  rcases hsome : tree.find? (isTopFileNamed name) with _ | e
  · rw [hsome] at hfile; cases hfile
  · simp only [modify_and_repackage_workbook, noFaults, hfind, hsome, Bool.false_eq_true,
      if_false]
    have hmap : (tree.map fun e =>
        if isTopFileNamed name e then { e with content := pyReplace find rep e.content }
        else e) = tree := by
      apply map_id_of_eq
      intro a ha
      by_cases hc : isTopFileNamed name a = true
      · rw [if_pos hc, pyReplace_of_not_contains rep (hnc a ha hc)]
      · rw [if_neg hc]
    rw [hmap]

theorem C7_witness :
    (modify_and_repackage_workbook noFaults [⟨"w.twb".toList, [], "hello".toList⟩]
      "zz".toList "yy".toList).1 = .ok [⟨"w.twb".toList, [], "hello".toList⟩] :=
  C7_absent_find_is_noop [⟨"w.twb".toList, [], "hello".toList⟩] "zz".toList "yy".toList
    "w.twb".toList (by decide) (by decide) (by decide)

/-- C9 is false as stated: the requested name "/a" matches the project
named "/a" case-insensitively, yet resolution returns no project,
because a leading slash is stripped before the comparison. -/
theorem C9_counterexample :
    find_project_by_name [⟨"/a".toList⟩] "/a".toList = none ∧
    ∃ p, p ∈ [(⟨"/a".toList⟩ : Project)] ∧ lowerName p.name = lowerName "/a".toList :=
  ⟨by decide, ⟨⟨"/a".toList⟩, by decide, by decide⟩⟩

/-- C9 amended: container resolution first strips one leading slash from
the requested name and then matches by case-insensitive comparison; it
returns no container exactly when no name in the list matches the
stripped requested name case-insensitively, and any returned container
is a case-insensitive match for the stripped name. -/
theorem C9_amended_case_insensitive (projects : List Project) (name : List Char) :
    (find_project_by_name projects name = none ↔
      ∀ p ∈ projects, lowerName p.name ≠ lowerName (stripLeadingSlash name)) ∧
    ∀ p, find_project_by_name projects name = some p →
      p ∈ projects ∧ lowerName p.name = lowerName (stripLeadingSlash name) := by
  constructor
  · rw [find_project_by_name, caseInsensitiveLookup, List.find?_eq_none]
    constructor
    · intro h p hp
      simpa using h p hp
    · intro h p hp
      simpa using h p hp
  · intro p hp
    rw [find_project_by_name, caseInsensitiveLookup] at hp
    exact ⟨List.mem_of_find?_eq_some hp, by simpa using List.find?_some hp⟩

theorem C9_witness :
    find_project_by_name [⟨"Sales".toList⟩] "zz".toList = none :=
  (C9_amended_case_insensitive [⟨"Sales".toList⟩] "zz".toList).1.mpr (by decide)

/-- C10: a requested name beginning with a slash has exactly one leading
slash stripped before the case-insensitive lookup; names not beginning
with a slash are looked up unchanged, so "/Finance" resolves to the same
container as "Finance". -/
theorem C10_strip_one_slash (projects : List Project) (rest name : List Char) :
    find_project_by_name projects ('/' :: rest) = caseInsensitiveLookup projects rest ∧
    (name.head? ≠ some '/' →
      find_project_by_name projects name = caseInsensitiveLookup projects name) ∧
    (rest.head? ≠ some '/' →
      find_project_by_name projects ('/' :: rest) = find_project_by_name projects rest) := by
  refine ⟨?_, ?_, ?_⟩
  · rw [find_project_by_name]
    simp [stripLeadingSlash]
  · intro h
    rw [find_project_by_name, stripLeadingSlash_of_no_slash h]
  · intro h
    rw [find_project_by_name, find_project_by_name, stripLeadingSlash_of_no_slash h]
    simp [stripLeadingSlash]

theorem C10_witness :
    find_project_by_name [⟨"Finance".toList⟩] ('/' :: "Finance".toList) =
      find_project_by_name [⟨"Finance".toList⟩] "Finance".toList :=
  (C10_strip_one_slash [⟨"Finance".toList⟩] "Finance".toList "Finance".toList).2.2 (by decide)

/-- A tree whose only `.twb` file sits inside a subdirectory. -/
def nestedOnlyTree : List FileEntry :=
  [⟨"sub".toList, ["a.twb".toList], "x".toList⟩]

/-- A tree with a definition file directly at the top level. -/
def topLevelTree : List FileEntry :=
  [⟨"w.twb".toList, [], "x".toList⟩]

/-- C2 is false as stated: this tree contains a file named `a.twb`
(inside the subdirectory `sub`), yet the transformer fails with the
no-definition-file error, because the scan is a non-recursive
`os.listdir` of the extraction directory. -/
theorem C2_counterexample :
    (∃ e, e ∈ nestedOnlyTree ∧ lowerEndsWithTwb (fileName e) = true) ∧
    (modify_and_repackage_workbook noFaults nestedOnlyTree "f".toList "r".toList).1 =
      .error .noTwbFound :=
  ⟨⟨⟨"sub".toList, ["a.twb".toList], "x".toList⟩, by decide, by decide⟩, by decide⟩

/-- C2 amended: the transformer scans only the top level of the
extraction directory (`os.listdir`), matching entry names (files or
subdirectories) case-insensitively on the `.twb` suffix; given that
extraction succeeded, it fails with the no-definition-file error exactly
when no top-level entry name ends in `.twb` — files in subdirectories
are not considered. -/
theorem C2_amended_top_level_scan (faults : TransformFaults) (tree : List FileEntry)
    (find rep : List Char) :
    (modify_and_repackage_workbook faults tree find rep).1 = .error .noTwbFound ↔
      (faults.extractRaises = false ∧
        ∀ name ∈ listdirNames tree, lowerEndsWithTwb name = false) := by
  obtain ⟨ex, rwf, rzf⟩ := faults
  cases ex with
  | true => simp [modify_and_repackage_workbook]
  | false =>
    simp only [modify_and_repackage_workbook]
    rcases hfind : (listdirNames tree).find? lowerEndsWithTwb with _ | name
    · simp only [hfind]
      constructor
      · intro _
        refine ⟨by simp, fun nm hnm => ?_⟩
        simpa using List.find?_eq_none.mp hfind nm hnm
      · intro _
        simp
    · have hname := List.find?_some hfind
      have hmem := List.mem_of_find?_eq_some hfind
      simp only [hfind]
      rcases hfile : tree.find? (isTopFileNamed name) with _ | e
      · simp only [hfile]
        exact ⟨fun h => by simp at h, fun h => absurd (h.2 name hmem) (by simp [hname])⟩
      · simp only [hfile]
        cases rwf <;> cases rzf <;>
          exact ⟨fun h => by simp at h, fun h => absurd (h.2 name hmem) (by simp [hname])⟩

theorem C2_amended_witness :
    (modify_and_repackage_workbook noFaults topLevelTree "f".toList "r".toList).1 ≠
      .error .noTwbFound :=
  fun h => absurd ((C2_amended_top_level_scan noFaults topLevelTree "f".toList "r".toList).mp h)
    (by decide)

/-- C3 is false as stated: on the extraction-failure return path the
temporary extraction directory still exists when the transformer
returns (the `except` handler around `extractall` does not remove
it). -/
theorem C3_counterexample :
    (modify_and_repackage_workbook ⟨true, false, false⟩ topLevelTree
      "f".toList "r".toList).1 = .error .extractFailed ∧
    (modify_and_repackage_workbook ⟨true, false, false⟩ topLevelTree
      "f".toList "r".toList).2 = true :=
  ⟨by decide, by decide⟩

/-- C3 amended: the temporary extraction directory no longer exists on
every return path that is reached after a successful extraction
(missing definition file, read/write failure, re-archive failure, and
success); it remains on disk exactly when extraction itself fails. -/
theorem C3_amended_dir_removed (faults : TransformFaults) (tree : List FileEntry)
    (find rep : List Char) :
    (modify_and_repackage_workbook faults tree find rep).2 = faults.extractRaises := by
  obtain ⟨ex, rwf, rzf⟩ := faults
  cases ex with
  | true => simp [modify_and_repackage_workbook]
  | false =>
    simp only [modify_and_repackage_workbook]
    rcases hfind : (listdirNames tree).find? lowerEndsWithTwb with _ | name
    · simp [hfind]
    · rcases hfile : tree.find? (isTopFileNamed name) with _ | e
      · simp [hfind, hfile]
      · cases rwf <;> cases rzf <;> simp [hfind, hfile]

theorem map_congr_mem {α β : Type} (f g : α → β) :
    ∀ l : List α, (∀ a ∈ l, f a = g a) → l.map f = l.map g
  | [], _ => rfl
  | a :: as, h => by
    rw [List.map_cons, List.map_cons, h a (List.mem_cons_self a as),
      map_congr_mem f g as (fun x hx => h x (List.mem_cons_of_mem _ hx))]

theorem mem_paths_extractTree (l : List FileEntry) (p : List (List Char)) :
    p ∈ (extractTree l).map fullPath ↔ p ∈ l.map fullPath := by
  induction l with
  | nil => simp [extractTree]
  | cons e rest ih =>
    by_cases h : rest.any (fun x => fullPath x == fullPath e) = true
    · simp only [extractTree, if_pos h, List.map_cons, List.mem_cons]
      rw [ih]
      obtain ⟨x, hx, hfp⟩ := List.any_eq_true.mp h
      have hfp : fullPath x = fullPath e := by simpa using hfp
      constructor
      · intro hp
        exact Or.inr hp
      · rintro (rfl | hp)
        · exact List.mem_map.mpr ⟨x, hx, hfp⟩
        · exact hp
    · simp only [extractTree, if_neg h, List.map_cons, List.mem_cons]
      rw [ih]

theorem nodup_paths_extractTree (l : List FileEntry) :
    ((extractTree l).map fullPath).Nodup := by
  induction l with
  | nil => simp [extractTree]
  | cons e rest ih =>
    by_cases h : rest.any (fun x => fullPath x == fullPath e) = true
    · simpa only [extractTree, if_pos h] using ih
    · simp only [extractTree, if_neg h, List.map_cons, List.nodup_cons]
      refine ⟨fun hmem => ?_, ih⟩
      rw [mem_paths_extractTree] at hmem
      obtain ⟨x, hx, hfx⟩ := List.mem_map.mp hmem
      exact absurd (List.any_eq_true.mpr ⟨x, hx, by simp [hfx]⟩) h

theorem extractTree_of_nodup :
    ∀ l : List FileEntry, (l.map fullPath).Nodup → extractTree l = l
  | [], _ => rfl
  | e :: rest, h => by
    simp only [List.map_cons, List.nodup_cons] at h
    have hany : rest.any (fun x => fullPath x == fullPath e) = false := by
      cases hc : rest.any (fun x => fullPath x == fullPath e) with
      | false => rfl
      | true =>
        obtain ⟨x, hx, hfx⟩ := List.any_eq_true.mp hc
        have hfx : fullPath x = fullPath e := by simpa using hfx
        exact absurd (List.mem_map.mpr ⟨x, hx, hfx⟩) h.1
    simp only [extractTree, hany, Bool.false_eq_true, if_false]
    rw [extractTree_of_nodup rest h.2]

theorem modify_ok_paths (tree : List FileEntry) (find rep : List Char)
    (tree' : List FileEntry)
    (h : (modify_and_repackage_workbook noFaults tree find rep).1 = .ok tree') :
    tree'.map fullPath = tree.map fullPath := by
  simp only [modify_and_repackage_workbook, noFaults] at h
  rcases hfind : (listdirNames tree).find? lowerEndsWithTwb with _ | name
  · simp only [hfind] at h
    simp at h
  · rcases hfile : tree.find? (isTopFileNamed name) with _ | e
    · simp only [hfind, hfile] at h
      simp at h
    · simp only [hfind, hfile] at h
      simp only [Bool.false_eq_true, if_false, Except.ok.injEq] at h
      rw [← h, List.map_map]
      apply map_congr_mem
      intro a _
      by_cases hc : isTopFileNamed name a = true
      · simp only [Function.comp, if_pos hc]
        cases a
        rfl
      · simp only [Function.comp, if_neg hc]

/-- C8: on every successful transform, the produced archive's relative
paths are exactly those of the extracted input tree, whose path set is
exactly that of the input archive; no path is dropped and, since the
produced archive has one entry per walked file, none is duplicated, so
extracting the produced archive reproduces its entries exactly. -/
theorem C8_paths_preserved (archive : List FileEntry) (find rep : List Char)
    (tree' : List FileEntry)
    (h : (modify_and_repackage_workbook noFaults (extractTree archive) find rep).1 =
      .ok tree') :
    tree'.map fullPath = (extractTree archive).map fullPath ∧
    (∀ p, p ∈ tree'.map fullPath ↔ p ∈ archive.map fullPath) ∧
    (tree'.map fullPath).Nodup ∧
    extractTree tree' = tree' := by
  have h1 := modify_ok_paths _ _ _ _ h
  have h3 : (tree'.map fullPath).Nodup := h1 ▸ nodup_paths_extractTree archive
  exact ⟨h1, fun p => by rw [h1]; exact mem_paths_extractTree archive p, h3,
    extractTree_of_nodup tree' h3⟩

/-- A two-file archive (definition file plus a nested data file). -/
def c8Archive : List FileEntry :=
  [⟨"w.twb".toList, [], "ab".toList⟩, ⟨"d".toList, ["x.csv".toList], "z".toList⟩]

/-- The transformer's output on `c8Archive` with find "a", replace "". -/
def c8Output : List FileEntry :=
  [⟨"w.twb".toList, [], "b".toList⟩, ⟨"d".toList, ["x.csv".toList], "z".toList⟩]

theorem C8_witness :
    c8Output.map fullPath = (extractTree c8Archive).map fullPath ∧
    (c8Output.map fullPath).Nodup ∧ extractTree c8Output = c8Output :=
  have h := C8_paths_preserved c8Archive "a".toList "".toList c8Output (by decide)
  ⟨h.1, h.2.2.1, h.2.2.2⟩

/-! ### Pipeline claim theorems -/

theorem pollLoop_of_never {present : Nat → Bool} (hp : ∀ t, present t = false) :
    ∀ n t, pollLoop present n t = none
  | 0, _ => rfl
  | n + 1, t => by
    simp only [pollLoop, hp t, Bool.false_eq_true, if_false]
    exact pollLoop_of_never hp n (t + 1)

theorem pollTimes_of_never {present : Nat → Bool} (hp : ∀ t, present t = false) :
    ∀ n t, pollTimes present n t = (List.range n).map (· + t)
  | 0, _ => rfl
  | n + 1, t => by
    simp only [pollTimes, hp t, Bool.false_eq_true, if_false]
    rw [pollTimes_of_never hp n (t + 1), List.range_succ_eq_map, List.map_cons,
      List.map_map]
    simp only [Nat.zero_add]
    congr 1
    apply map_congr_mem
    intro a _
    simp only [Function.comp]
    omega

/-- C5: when the expected downloaded file never appears, the fetcher
checks for it exactly 20 times, at seconds 0 through 19 (one-second
intervals), then fails with the download-timeout error, and the
pipeline halts: the transformer and publisher stages never run and no
cleanup is reached. -/
theorem C5_download_timeout (fi : FetchInput)
    (hnever : ∀ t, fi.present t = false)
    (hlr : fi.listRaises = false) (hpf : fi.projectFound = true)
    (hwf : fi.workbookFound = true) (hdr : fi.downloadCallRaises = false) :
    downloadOutcome fi = .failed .timeout ∧
    pollTimes fi.present maxWaitSeconds 0 = List.range 20 ∧
    (pollTimes fi.present maxWaitSeconds 0).length = 20 ∧
    ∀ tr da pub,
      (process_workbook_migration ⟨.ok, fi, tr, da, pub⟩).transformerRan = false ∧
      (process_workbook_migration ⟨.ok, fi, tr, da, pub⟩).publisherRan = false ∧
      (process_workbook_migration ⟨.ok, fi, tr, da, pub⟩).cleanupReached = false := by
  have hdl : downloadOutcome fi = .failed .timeout := by
    simp [downloadOutcome, hlr, hpf, hwf, hdr, pollLoop_of_never hnever]
  have htimes : pollTimes fi.present maxWaitSeconds 0 = List.range 20 := by
    rw [pollTimes_of_never hnever]
    simp [maxWaitSeconds]
  refine ⟨hdl, htimes, by rw [htimes]; simp, fun tr da pub => ?_⟩
  simp [process_workbook_migration, hdl, initialState]

theorem C5_witness :
    downloadOutcome ⟨false, true, true, false, fun _ => false⟩ = .failed .timeout ∧
    pollTimes (fun _ => false) maxWaitSeconds 0 = List.range 20 :=
  have h := C5_download_timeout ⟨false, true, true, false, fun _ => false⟩
    (fun _ => rfl) rfl rfl rfl rfl
  ⟨h.1, h.2.1⟩

/-- A fetch whose file is present immediately. -/
def goodFetch : FetchInput := ⟨false, true, true, false, fun _ => true⟩

/-- A fetch in which listing the source project or workbook raises. -/
def raisingFetch : FetchInput := ⟨true, true, true, false, fun _ => true⟩

/-- A run in which download and transform succeed and the destination
server rejects the upload. -/
def c1Input : RunInput := ⟨.ok, goodFetch, .ok, .ok, .rejected⟩

/-- C1 is false as stated: in a run where download and transform
succeed and the publish stage fails (rejected upload), cleanup is
still reached and both local archives are deleted, because
`publish_modified_workbook` swallows its errors and the orchestrator
proceeds to cleanup unconditionally. -/
theorem C1_counterexample :
    downloadOutcome c1Input.fetch = .fetched ∧
    c1Input.transform = .ok ∧
    c1Input.publish = .rejected ∧
    (process_workbook_migration c1Input).cleanupReached = true ∧
    (process_workbook_migration c1Input).downloadedOnDisk = false ∧
    (process_workbook_migration c1Input).transformedOnDisk = false := by
  refine ⟨by decide, rfl, rfl, by decide, by decide, by decide⟩

/-- C1 amended: after download and transform succeed, the publish
stage's outcome does not influence cleanup: whenever the publish stage
returns (successful upload, unknown destination container, or rejected
upload alike), cleanup runs and deletes both local archives; the
archives remain on disk only when destination authentication fails or
the publish stage raises an unhandled exception. -/
theorem C1_amended_cleanup_always (i : RunInput)
    (hsa : i.sourceAuth = .ok)
    (hfetch : downloadOutcome i.fetch = .fetched)
    (htr : i.transform = .ok) :
    ((i.destAuth = .ok ∧ i.publish ≠ .raises) →
      (process_workbook_migration i).cleanupReached = true ∧
      (process_workbook_migration i).downloadedOnDisk = false ∧
      (process_workbook_migration i).transformedOnDisk = false) ∧
    ((i.destAuth ≠ .ok ∨ i.publish = .raises) →
      (process_workbook_migration i).cleanupReached = false ∧
      (process_workbook_migration i).downloadedOnDisk = true ∧
      (process_workbook_migration i).transformedOnDisk = true) := by
  constructor
  · rintro ⟨hda, hpub⟩
    rcases hpd : i.publish with _ | _ | _ | _ <;>
      simp_all [process_workbook_migration, initialState]
  · intro hcase
    rcases hda : i.destAuth with _ | _ | _ <;>
      rcases hpd : i.publish with _ | _ | _ | _ <;>
        simp_all [process_workbook_migration, initialState]

theorem C1_witness :
    (process_workbook_migration c1Input).cleanupReached = true ∧
    (process_workbook_migration c1Input).downloadedOnDisk = false ∧
    (process_workbook_migration c1Input).transformedOnDisk = false :=
  (C1_amended_cleanup_always c1Input rfl (by decide) rfl).1 ⟨rfl, by decide⟩

/-- A run in which listing during fetch raises an unhandled exception. -/
def c4Input : RunInput := ⟨.ok, raisingFetch, .ok, .ok, .ok⟩

/-- C4 is false as stated: when the project or workbook listing inside
the fetch stage raises (it runs outside any `try`), the exception
propagates past the source sign-out, so the successfully opened source
session is never released. -/
theorem C4_counterexample :
    (process_workbook_migration c4Input).sourceSignIns = 1 ∧
    (process_workbook_migration c4Input).sourceSignOuts = 0 ∧
    (process_workbook_migration c4Input).raisedOut = true := by
  decide

/-- C4 amended: on every run in which neither the fetch stage nor the
publish stage raises an unhandled exception, every successfully opened
session (source and destination) is released by exactly one sign-out;
when one of those stages raises, the corresponding session leaks. -/
theorem C4_amended_signout_balance (i : RunInput)
    (hf : downloadOutcome i.fetch ≠ .raises)
    (hp : i.publish ≠ .raises) :
    (process_workbook_migration i).sourceSignOuts =
      (process_workbook_migration i).sourceSignIns ∧
    (process_workbook_migration i).destSignOuts =
      (process_workbook_migration i).destSignIns ∧
    (process_workbook_migration i).sourceSignIns ≤ 1 ∧
    (process_workbook_migration i).destSignIns ≤ 1 := by
  rcases hsa : i.sourceAuth with _ | _ | _ <;>
    rcases hdo : downloadOutcome i.fetch with _ | e | _ <;>
      rcases htr : i.transform with _ | _ | _ <;>
        rcases hda : i.destAuth with _ | _ | _ <;>
          rcases hpd : i.publish with _ | _ | _ | _ <;>
            simp_all [process_workbook_migration, initialState]

theorem C4_witness :
    (process_workbook_migration c1Input).sourceSignOuts =
      (process_workbook_migration c1Input).sourceSignIns ∧
    (process_workbook_migration c1Input).destSignOuts =
      (process_workbook_migration c1Input).destSignIns :=
  have h := C4_amended_signout_balance c1Input (by decide) (by decide)
  ⟨h.1, h.2.1⟩

end DeployWorkbook
